import Mathlib

/-!
# Verification of `sleekxmpp/xmlstream/scheduler.py`

A shallow embedding of the SleekXMPP task scheduler.  Time (`time.time()`)
is modelled as an integer instant supplied explicitly to each operation;
callbacks are opaque and identified by a natural number, with an oracle
`raises : Nat → Bool` telling which callback invocations raise an exception.
Side effects of firing a task (queue puts, synchronous calls) are recorded as
an explicit effect list.
-/

namespace SleekScheduler

/-- A scheduled task, mirroring `class Task` of `scheduler.py`:
fields in the order `__init__` assigns them.  `callback` is an opaque
callback identifier, `args`/`kwargs` the captured payload, `next` the
absolute next-fire instant, `qpointer` the optional deferred-execution
queue handle. -/
structure Task where
  name : String
  seconds : Int
  callback : Nat
  args : List Int
  kwargs : List (String × Int)
  repeat' : Bool
  next : Int
  qpointer : Option Nat
deriving DecidableEq, Repr

/-- `Task.__init__`: all fields stored as given, `next = time.time() + seconds`. -/
def Task.init (now : Int) (name : String) (seconds : Int) (callback : Nat)
    (args : List Int) (kwargs : List (String × Int)) (repeat' : Bool)
    (qpointer : Option Nat) : Task :=
  { name := name, seconds := seconds, callback := callback, args := args,
    kwargs := kwargs, repeat' := repeat', next := now + seconds,
    qpointer := qpointer }

/-- `Task.reset`: `self.next = time.time() + self.seconds`. -/
def Task.reset (now : Int) (t : Task) : Task :=
  { t with next := now + t.seconds }

/-- An observable side effect of firing a task: either a directive tuple
`('schedule', callback, args)` put onto the deferred queue `q`
(the task's `qpointer`), or a synchronous invocation
`callback(*args, **kwargs)`. -/
inductive RunEffect where
  | put (q : Nat) (directive : String × Nat × List Int)
  | call (callback : Nat) (args : List Int) (kwargs : List (String × Int))
deriving DecidableEq, Repr

/-- `Task.run`: if `qpointer` is set, put `('schedule', self.callback,
self.args)` on it; otherwise invoke the callback (which may raise, per the
`raises` oracle — the exception carries the callback id).  On success,
`self.reset()` runs and `self.repeat` is returned. -/
def Task.run (raises : Nat → Bool) (now : Int) (t : Task) :
    Except Nat (RunEffect × Task × Bool) :=
  match t.qpointer with
  | some q => .ok (.put q ("schedule", t.callback, t.args), Task.reset now t, t.repeat')
  | none =>
    if raises t.callback then .error t.callback
    else .ok (.call t.callback t.args t.kwargs, Task.reset now t, t.repeat')

/-- The effect produced when task `t` fires successfully. -/
def fireEffect (t : Task) : RunEffect :=
  match t.qpointer with
  | some q => .put q ("schedule", t.callback, t.args)
  | none => .call t.callback t.args t.kwargs

/-- Exceptions relevant to the scheduler: the two asynchronous exceptions
`_process` handles, an uncaught exception raised by a callback (carrying its
id), and `UniqueKeyConstraint` raised by `add` (carrying its message). -/
inductive Exn where
  | keyboardInterrupt
  | systemExit
  | callbackError (id : Nat)
  | uniqueKeyConstraint (msg : String)
deriving DecidableEq, Repr

/-- Scheduler state: `addq` the pending FIFO queue, `schedule` the active
list, `run` the running flag, `stop` whether the external stop event is set. -/
structure SchedState where
  addq : List Task
  schedule : List Task
  run : Bool
  stop : Bool
deriving DecidableEq, Repr

/-- `Scheduler.__init__(stopevent)`. -/
def SchedState.init (stopevent : Bool) : SchedState :=
  { addq := [], schedule := [], run := false, stop := stopevent }

/-- The sort key order of `sorted(schedule, key=lambda task: task.next)`. -/
def taskLE (a b : Task) : Prop := a.next ≤ b.next

instance : DecidableRel taskLE := fun a b => Int.decLe a.next b.next

instance : IsTotal Task taskLE := ⟨fun a b => Int.le_total a.next b.next⟩

instance : IsTrans Task taskLE := ⟨fun _ _ _ h h' => le_trans h h'⟩

/-- `sorted(schedule, key=lambda task: task.next)` — Python's `sorted` is a
stable sort by the key, so any stable sorting algorithm models it exactly;
we use insertion sort, which is stable for a non-strict total order. -/
def sortByNext (l : List Task) : List Task :=
  l.insertionSort taskLE

/-- The raw wait computed at the top of each `_process` iteration:
`schedule[0].next - time.time()` when the schedule is non-empty, else `1`. -/
def rawWait (now : Int) : List Task → Int
  | [] => 1
  | t :: _ => t.next - now

/-- How the loop attempts `addq.get`: non-blocking (`get(False)`) or blocking
with a timeout (`get(True, wait)`). -/
inductive PopMode where
  | nonblocking
  | blocking (timeout : Int)
deriving DecidableEq, Repr

/-- `_process`'s pop attempt: non-blocking when `wait <= 0`, otherwise
blocking for `wait` clamped at `3.0`. -/
def popMode (now : Int) (l : List Task) : PopMode :=
  let wait := rawWait now l
  if wait ≤ 0 then .nonblocking
  else .blocking (if wait ≥ 3 then 3 else wait)

/-- Result of the `queue.Empty` branch of the loop (the due-task scan plus
cleanup): the schedule afterwards, the effects fired in order, the `updated`
flag, and the uncaught callback exception if one was raised. -/
structure ScanResult where
  sched : List Task
  effects : List RunEffect
  updated : Bool
  exn : Option Nat
deriving DecidableEq, Repr

/-- The due-task scan of `_process`: walk the schedule in order; while
`time.time() >= task.next`, set `updated`, run the task, and drop it if
`run()` returned `False`; stop at the first task not yet due.  If a callback
raises, the scan aborts: the raising task is unchanged (its `reset` never
ran) and the cleanup loop is skipped, so already-fired tasks stay in the
schedule. -/
def scanDue (raises : Nat → Bool) (now : Int) : List Task → ScanResult
  | [] => ⟨[], [], false, none⟩
  | t :: rest =>
    if now ≥ t.next then
      match Task.run raises now t with
      | .error e => ⟨t :: rest, [], true, some e⟩
      | .ok (eff, t', rpt) =>
        let r := scanDue raises now rest
        match r.exn with
        | some e => ⟨t' :: r.sched, eff :: r.effects, true, some e⟩
        | none => ⟨if rpt then t' :: r.sched else r.sched, eff :: r.effects, true, none⟩
    else ⟨t :: rest, [], false, none⟩

/-- The `queue.Empty` branch of one loop iteration, including the `finally`
re-sort when `updated` is set.  Returns the new state, the fired effects, and
the propagating callback exception, if any. -/
def emptyStep (raises : Nat → Bool) (now : Int) (s : SchedState) :
    SchedState × List RunEffect × Option Nat :=
  let r := scanDue raises now s.schedule
  let sched' := if r.updated then sortByNext r.sched else r.sched
  ({ s with schedule := sched' }, r.effects, r.exn)

/-- The `else` branch of one loop iteration: a popped pending task is
appended to the schedule and, since `updated` is set, the `finally` re-sort
runs.  (`addq.get` only succeeds when `addq` is non-empty.) -/
def mergeStep (s : SchedState) : SchedState :=
  match s.addq with
  | [] => s
  | t :: rest => { s with addq := rest, schedule := sortByNext (s.schedule ++ [t]) }

/-- `_process`'s outermost exception handling: `KeyboardInterrupt` and
`SystemExit` are caught (setting `run = False`, clean exit); every other
exception propagates out of `_process`. -/
def handleProcessExn (s : SchedState) (e : Exn) : SchedState × Option Exn :=
  match e with
  | .keyboardInterrupt => ({ s with run := false }, none)
  | .systemExit => ({ s with run := false }, none)
  | e => (s, some e)

/-- The first statement of `_process`: `self.run = True`, executed before
the loop condition is ever evaluated. -/
def processEntry (s : SchedState) : SchedState :=
  { s with run := true }

/-- The loop continuation condition: `self.run and not self.stop.isSet()`. -/
def loopCond (s : SchedState) : Bool :=
  s.run && !s.stop

/-- `Scheduler.quit`: `self.run = False`. -/
def Scheduler.quit (s : SchedState) : SchedState :=
  { s with run := false }

/-- `Scheduler.add`: under the lock, scan `schedule` for a task with the
same name, raising `UniqueKeyConstraint("Key %s already exists" % name)` if
found; otherwise construct a `Task` and put it on `addq`. -/
def Scheduler.add (s : SchedState) (now : Int) (name : String) (seconds : Int)
    (callback : Nat) (args : List Int) (kwargs : List (String × Int))
    (repeat' : Bool) (qpointer : Option Nat) : SchedState × Option Exn :=
  if s.schedule.any (fun t => t.name == name) then
    (s, some (.uniqueKeyConstraint ("Key " ++ name ++ " already exists")))
  else
    ({ s with addq := s.addq ++ [Task.init now name seconds callback args kwargs repeat' qpointer] },
     none)

/-- The body of `Scheduler.remove` on the schedule list: the scan keeps the
LAST matching task (`the_task` is overwritten on every match) and
`schedule.remove(the_task)` then deletes exactly that element (Python `==`
on `Task` objects is identity and each `add` constructs a fresh object, so
the removed occurrence is the last match's position); no-op when no task
matches. -/
def removeList (name : String) : List Task → List Task
  | [] => []
  | t :: rest =>
    if rest.any (fun u => u.name == name) then t :: removeList name rest
    else if t.name == name then rest
    else t :: removeList name rest

/-- `Scheduler.remove(name)`: removes the matching task from `schedule`
(see `removeList`); `addq` is untouched. -/
def Scheduler.remove (s : SchedState) (name : String) : SchedState :=
  { s with schedule := removeList name s.schedule }

/-! ## Sample data used by witnesses -/

/-- A deferred-execution sample task. -/
def sampleDeferred : Task :=
  { name := "d", seconds := 5, callback := 2, args := [1], kwargs := [("k", 9)],
    repeat' := true, next := 3, qpointer := some 7 }

/-- A sample task with a distant `next`. -/
def sampleFar : Task :=
  { name := "f", seconds := 9, callback := 0, args := [], kwargs := [],
    repeat' := false, next := 9, qpointer := none }

/-- A sample active task named `"a"`. -/
def sampleActive : Task :=
  { name := "a", seconds := 4, callback := 1, args := [], kwargs := [],
    repeat' := true, next := 4, qpointer := none }

/-- A sample task named `"b"`. -/
def sampleB : Task :=
  { name := "b", seconds := 2, callback := 3, args := [], kwargs := [],
    repeat' := false, next := 2, qpointer := none }

/-- A scheduler state whose schedule holds `sampleActive`. -/
def sampleStateWithA : SchedState :=
  { addq := [], schedule := [sampleActive], run := true, stop := false }

/-! ## Basic facts about firing a task -/

/-- Firing a task whose callback does not raise succeeds, producing its
`fireEffect`, the reset task and the `repeat` flag. -/
theorem Task.run_ok (raises : Nat → Bool) (now : Int) (t : Task)
    (h : t.qpointer = none → raises t.callback = false) :
    Task.run raises now t = .ok (fireEffect t, Task.reset now t, t.repeat') := by
  cases hq : t.qpointer with
  | some q => simp [Task.run, fireEffect, hq]
  | none => simp [Task.run, fireEffect, hq, h hq]

/-- Claim C4: `Task.run` pushes exactly the 3-tuple directive
`('schedule', callback, args)` — without the keyword arguments — onto the
deferred queue when `qpointer` is set, otherwise invokes the callback
synchronously with the stored positional and keyword arguments; whenever it
fires it resets `next = now + interval` and returns the `repeat` flag. -/
theorem run_deferred_or_call_then_reset (raises : Nat → Bool) (now : Int) (t : Task) :
    (∀ q, t.qpointer = some q →
      Task.run raises now t =
        .ok (.put q ("schedule", t.callback, t.args), Task.reset now t, t.repeat')) ∧
    (t.qpointer = none → raises t.callback = false →
      Task.run raises now t =
        .ok (.call t.callback t.args t.kwargs, Task.reset now t, t.repeat')) ∧
    (∀ eff t' r, Task.run raises now t = .ok (eff, t', r) →
      t'.next = now + t.seconds ∧ r = t.repeat') := by
  refine ⟨?_, ?_, ?_⟩
  · intro q hq
    simp [Task.run, hq]
  · intro hq hr
    simp [Task.run, hq, hr]
  · intro eff t' r h
    cases hq : t.qpointer with
    | some q =>
      simp only [Task.run, hq] at h
      obtain ⟨-, h2, h3⟩ := by simpa using h
      subst h2
      subst h3
      exact ⟨rfl, rfl⟩
    | none =>
      simp only [Task.run, hq] at h
      split at h
      · exact absurd h (by simp)
      · obtain ⟨-, h2, h3⟩ := by simpa using h
        subst h2
        subst h3
        exact ⟨rfl, rfl⟩

/-- Claim C4 witness: firing the concrete deferred task at time `10`. -/
theorem run_deferred_or_call_then_reset_witness :
    Task.run (fun _ => false) 10 sampleDeferred =
      .ok (.put 7 ("schedule", 2, [1]), Task.reset 10 sampleDeferred, true) :=
  (run_deferred_or_call_then_reset (fun _ => false) 10 sampleDeferred).1 7 rfl

/-! ## The wait computation (claim C5) -/

/-- Claim C5: each iteration's wait is `schedule[0].next - now` when the
schedule is non-empty and `1` second when it is empty; the pop is
non-blocking exactly when the wait is non-positive, and a positive wait
gives a blocking pop whose timeout is the wait clamped to at most `3`
seconds. -/
theorem wait_clamped_pop (now : Int) (l : List Task) :
    (l = [] → rawWait now l = 1) ∧
    (∀ t rest, l = t :: rest → rawWait now l = t.next - now) ∧
    (popMode now l = .nonblocking ↔ rawWait now l ≤ 0) ∧
    (0 < rawWait now l → popMode now l = .blocking (min (rawWait now l) 3)) ∧
    (∀ w, popMode now l = .blocking w → 0 < w ∧ w ≤ 3) := by
  refine ⟨fun h => by subst h; rfl, fun t rest h => by subst h; rfl, ?_, ?_, ?_⟩
  · by_cases h : rawWait now l ≤ 0
    · simp [popMode, h]
    · simp [popMode, h]
  · intro h
    simp only [popMode]
    rw [if_neg (by omega)]
    have hmin : (if rawWait now l ≥ 3 then (3 : Int) else rawWait now l)
        = min (rawWait now l) 3 := by
      split <;> omega
    rw [hmin]
  · intro w hw
    simp only [popMode] at hw
    split at hw
    · exact absurd hw (by simp)
    · rename_i hle
      injection hw with hw
      subst hw
      constructor
      · split <;> omega
      · split <;> omega

/-- Claim C5 witness: with an empty schedule the wait is one second; with a
distant first task at time `0`, the pop blocks with the clamped timeout. -/
theorem wait_clamped_pop_witness :
    rawWait 0 ([] : List Task) = 1 ∧
    rawWait 0 [sampleFar] = sampleFar.next - 0 ∧
    popMode 0 [sampleFar] = .blocking (min (rawWait 0 [sampleFar]) 3) :=
  ⟨(wait_clamped_pop 0 []).1 rfl,
   (wait_clamped_pop 0 [sampleFar]).2.1 sampleFar [] rfl,
   (wait_clamped_pop 0 [sampleFar]).2.2.2.1 (by decide)⟩

/-! ## Entry and shutdown flags (claim C10) -/

/-- Claim C10: `_process` sets the running flag on entry before the loop
condition is ever checked, so a `quit()` issued beforehand is overridden and
the loop runs whenever the stop event is unset; `quit()` does falsify the
condition of a loop whose entry has already executed. -/
theorem process_entry_overrides_quit (s : SchedState) :
    (processEntry (Scheduler.quit s)).run = true ∧
    loopCond (processEntry (Scheduler.quit s)) = !s.stop ∧
    (s.stop = false → loopCond (processEntry (Scheduler.quit s)) = true) ∧
    loopCond (Scheduler.quit s) = false := by
  refine ⟨rfl, rfl, fun h => ?_, rfl⟩
  simp [loopCond, processEntry, Scheduler.quit, h]

/-- Claim C10 witness: quitting a freshly constructed scheduler and then
entering `_process` still yields a true loop condition. -/
theorem process_entry_overrides_quit_witness :
    loopCond (processEntry (Scheduler.quit (SchedState.init false))) = true :=
  (process_entry_overrides_quit (SchedState.init false)).2.2.1 rfl

/-! ## The duplicate-name check of `add` (claim C2) -/

/-- Claim C2: `add` raises `UniqueKeyConstraint` exactly when a task with
the given name is in the active schedule, and then leaves both the schedule
and the pending queue untouched; otherwise it pushes a freshly constructed
task onto the pending queue.  The check only inspects the schedule, so a
second `add` of the same name before any merge also succeeds. -/
theorem add_duplicate_check (s : SchedState) (now : Int) (name : String)
    (seconds : Int) (callback : Nat) (args : List Int)
    (kwargs : List (String × Int)) (repeat' : Bool) (qpointer : Option Nat) :
    ((Scheduler.add s now name seconds callback args kwargs repeat' qpointer).2.isSome
      ↔ ∃ t ∈ s.schedule, t.name = name) ∧
    ((∃ t ∈ s.schedule, t.name = name) →
      Scheduler.add s now name seconds callback args kwargs repeat' qpointer
        = (s, some (.uniqueKeyConstraint ("Key " ++ name ++ " already exists")))) ∧
    ((∀ t ∈ s.schedule, t.name ≠ name) →
      Scheduler.add s now name seconds callback args kwargs repeat' qpointer
        = ({ s with addq :=
              s.addq ++ [Task.init now name seconds callback args kwargs repeat' qpointer] },
           none)) ∧
    ((∀ t ∈ s.schedule, t.name ≠ name) →
      (Scheduler.add
          (Scheduler.add s now name seconds callback args kwargs repeat' qpointer).1
          now name seconds callback args kwargs repeat' qpointer).2 = none) := by
  have hany : (s.schedule.any (fun t => t.name == name) = true)
      ↔ ∃ t ∈ s.schedule, t.name = name := by
    simp [List.any_eq_true]
  by_cases h : s.schedule.any (fun t => t.name == name) = true
  · refine ⟨?_, fun _ => ?_, fun hn => ?_, fun hn => ?_⟩
    · simp [Scheduler.add, h, hany.mp h]
    · simp [Scheduler.add, h]
    · obtain ⟨t, ht, he⟩ := hany.mp h
      exact absurd he (hn t ht)
    · obtain ⟨t, ht, he⟩ := hany.mp h
      exact absurd he (hn t ht)
  · have hno : ¬ ∃ t ∈ s.schedule, t.name = name := fun hex => h (hany.mpr hex)
    refine ⟨?_, fun hex => absurd hex hno, fun _ => ?_, fun _ => ?_⟩
    · simp [Scheduler.add, h, hno]
    · simp [Scheduler.add, h]
    · simp [Scheduler.add, h]

/-- Claim C2 witness: adding `"a"` to a state whose schedule already holds a
task named `"a"` raises and leaves the state unchanged. -/
theorem add_duplicate_check_witness :
    Scheduler.add sampleStateWithA 0 "a" 2 5 [] [] false none
      = (sampleStateWithA,
         some (.uniqueKeyConstraint ("Key " ++ "a" ++ " already exists"))) :=
  (add_duplicate_check sampleStateWithA 0 "a" 2 5 [] [] false none).2.1
    ⟨sampleActive, List.Mem.head _, rfl⟩

/-! ## Name uniqueness in the active schedule (claim C6) -/

/-- Claim C6 counterexample: two `add` calls with the same name both succeed
while the schedule is empty, and the two subsequent merge steps put two
tasks named `"a"` into the active schedule — the merge step does not
preserve name uniqueness. -/
theorem merge_breaks_name_uniqueness :
    ((Scheduler.add (SchedState.init false) 0 "a" 5 0 [] [] true none).2 = none) ∧
    ((Scheduler.add (Scheduler.add (SchedState.init false) 0 "a" 5 0 [] [] true none).1
        0 "a" 5 1 [] [] true none).2 = none) ∧
    ((mergeStep (mergeStep
        (Scheduler.add (Scheduler.add (SchedState.init false) 0 "a" 5 0 [] [] true none).1
          0 "a" 5 1 [] [] true none).1)).schedule.map Task.name = ["a", "a"]) ∧
    ¬ ((mergeStep (mergeStep
        (Scheduler.add (Scheduler.add (SchedState.init false) 0 "a" 5 0 [] [] true none).1
          0 "a" 5 1 [] [] true none).1)).schedule.map Task.name).Nodup := by
  decide

/-- Claim C6 amended: the merge step preserves name uniqueness of the active
schedule provided the merged task's name is not already present in it (a
condition `add` guarantees only against the schedule, not against tasks
still sitting in the pending queue). -/
theorem merge_preserves_uniqueness_of_fresh_name (s : SchedState) (t : Task)
    (rest : List Task) (haddq : s.addq = t :: rest)
    (hnodup : (s.schedule.map Task.name).Nodup)
    (hfresh : ∀ u ∈ s.schedule, u.name ≠ t.name) :
    ((mergeStep s).schedule.map Task.name).Nodup := by
  have hperm : List.Perm (sortByNext (s.schedule ++ [t])) (s.schedule ++ [t]) :=
    List.perm_insertionSort taskLE _
  have hmap : List.Perm ((sortByNext (s.schedule ++ [t])).map Task.name)
      ((s.schedule ++ [t]).map Task.name) := hperm.map Task.name
  have hnd : ((s.schedule ++ [t]).map Task.name).Nodup := by
    rw [List.map_append, List.nodup_append]
    refine ⟨hnodup, List.nodup_singleton _, ?_⟩
    intro a ha hb
    simp only [List.map_cons, List.map_nil, List.mem_singleton] at hb
    rcases List.mem_map.mp ha with ⟨u, hu, rfl⟩
    exact hfresh u hu hb
  simp only [mergeStep, haddq]
  exact hmap.nodup_iff.mpr hnd

/-- Claim C6 amended witness: merging a task named `"b"` into a schedule
holding only `"a"` keeps the names duplicate-free. -/
theorem merge_preserves_uniqueness_witness :
    ((mergeStep { addq := [sampleB], schedule := [sampleActive],
                  run := true, stop := false }).schedule.map Task.name).Nodup :=
  merge_preserves_uniqueness_of_fresh_name _ sampleB [] rfl (by decide) (by decide)

/-! ## The next-fire timestamp (claim C9) -/

/-- Claim C9 counterexample: `add` accepts a negative interval without any
validation — at time `0`, `add("n", -1, ...)` succeeds and the constructed
task's `next` is `-1`, strictly in the past. -/
theorem add_accepts_negative_interval :
    ((Scheduler.add (SchedState.init false) 0 "n" (-1) 0 [] [] false none).2 = none) ∧
    ((Scheduler.add (SchedState.init false) 0 "n" (-1) 0 [] [] false none).1.addq
      = [Task.init 0 "n" (-1) 0 [] [] false none]) ∧
    (Task.init 0 "n" (-1) 0 [] [] false none).next < 0 := by
  decide

/-- Claim C9 amended: after construction and after every reset (including
the one inside `run`), `next = now + seconds`; this is at or after `now`
precisely when `seconds` is non-negative, and the code never validates the
interval's sign. -/
theorem next_eq_now_add_seconds (now : Int) (t : Task) (name : String)
    (seconds : Int) (callback : Nat) (args : List Int)
    (kwargs : List (String × Int)) (repeat' : Bool) (qpointer : Option Nat) :
    ((Task.reset now t).next = now + t.seconds) ∧
    (now ≤ (Task.reset now t).next ↔ 0 ≤ t.seconds) ∧
    ((Task.init now name seconds callback args kwargs repeat' qpointer).next
      = now + seconds) ∧
    (now ≤ (Task.init now name seconds callback args kwargs repeat' qpointer).next
      ↔ 0 ≤ seconds) := by
  refine ⟨rfl, ?_, rfl, ?_⟩
  · simp only [Task.reset]
    omega
  · simp only [Task.init]
    omega

/-! ## Unfolding lemmas for the due-task scan -/

/-- Scanning a schedule whose head is not yet due does nothing. -/
theorem scanDue_cons_not_due (raises : Nat → Bool) (now : Int) (t : Task)
    (rest : List Task) (h : ¬ now ≥ t.next) :
    scanDue raises now (t :: rest) = ⟨t :: rest, [], false, none⟩ := by
  simp [scanDue, h]

/-- Scanning a schedule whose due head raises aborts immediately. -/
theorem scanDue_cons_due_error (raises : Nat → Bool) (now : Int) (t : Task)
    (rest : List Task) (e : Nat) (h : now ≥ t.next)
    (herr : Task.run raises now t = .error e) :
    scanDue raises now (t :: rest) = ⟨t :: rest, [], true, some e⟩ := by
  simp [scanDue, h, herr]

/-- Scanning past a due head that fired, when the rest of the scan later
raises: the fired head stays (cleanup is skipped). -/
theorem scanDue_cons_due_ok_some (raises : Nat → Bool) (now : Int) (t : Task)
    (rest : List Task) (eff : RunEffect) (t' : Task) (rpt : Bool) (e : Nat)
    (h : now ≥ t.next) (hok : Task.run raises now t = .ok (eff, t', rpt))
    (hexn : (scanDue raises now rest).exn = some e) :
    scanDue raises now (t :: rest)
      = ⟨t' :: (scanDue raises now rest).sched,
         eff :: (scanDue raises now rest).effects, true, some e⟩ := by
  simp [scanDue, h, hok, hexn]

/-- Scanning past a due head that fired, with an exception-free tail:
the head is kept (reset) exactly when it repeats. -/
theorem scanDue_cons_due_ok_none (raises : Nat → Bool) (now : Int) (t : Task)
    (rest : List Task) (eff : RunEffect) (t' : Task) (rpt : Bool)
    (h : now ≥ t.next) (hok : Task.run raises now t = .ok (eff, t', rpt))
    (hexn : (scanDue raises now rest).exn = none) :
    scanDue raises now (t :: rest)
      = ⟨(if rpt then t' :: (scanDue raises now rest).sched
          else (scanDue raises now rest).sched),
         eff :: (scanDue raises now rest).effects, true, none⟩ := by
  simp [scanDue, h, hok, hexn]

/-- When the scan fired nothing, the schedule is left unchanged (so the
skipped re-sort is harmless). -/
theorem scanDue_not_updated (raises : Nat → Bool) (now : Int) (l : List Task)
    (h : (scanDue raises now l).updated = false) :
    (scanDue raises now l).sched = l := by
  cases l with
  | nil => rfl
  | cons t rest =>
    by_cases hd : now ≥ t.next
    · exfalso
      cases hrun : Task.run raises now t with
      | error e =>
        rw [scanDue_cons_due_error raises now t rest e hd hrun] at h
        exact Bool.true_eq_false.mp h
      | ok v =>
        obtain ⟨eff, t', rpt⟩ := v
        cases hexn : (scanDue raises now rest).exn with
        | some e =>
          rw [scanDue_cons_due_ok_some raises now t rest eff t' rpt e hd hrun hexn] at h
          exact Bool.true_eq_false.mp h
        | none =>
          rw [scanDue_cons_due_ok_none raises now t rest eff t' rpt hd hrun hexn] at h
          exact Bool.true_eq_false.mp h
    · rw [scanDue_cons_not_due raises now t rest hd]

/-- Master description of the due-task scan when no due local callback
raises: the fired tasks are exactly the longest due prefix, their effects
are recorded in order, repeating fired tasks are kept reset while
non-repeating ones are dropped, and the not-yet-due suffix is untouched. -/
theorem scanDue_eq (raises : Nat → Bool) (now : Int) :
    ∀ l : List Task,
      (∀ t ∈ l, t.next ≤ now → t.qpointer = none → raises t.callback = false) →
      scanDue raises now l =
        ⟨(l.takeWhile (fun t => decide (t.next ≤ now))).filterMap
            (fun t => if t.repeat' then some (Task.reset now t) else none)
          ++ l.dropWhile (fun t => decide (t.next ≤ now)),
         (l.takeWhile (fun t => decide (t.next ≤ now))).map fireEffect,
         !(l.takeWhile (fun t => decide (t.next ≤ now))).isEmpty,
         none⟩
  | [], _ => rfl
  | t :: rest, hok => by
    by_cases hd : t.next ≤ now
    · have hrun := Task.run_ok raises now t (hok t (List.Mem.head _) hd)
      have ih := scanDue_eq raises now rest (fun u hu => hok u (List.Mem.tail _ hu))
      have hexn : (scanDue raises now rest).exn = none := by rw [ih]
      rw [scanDue_cons_due_ok_none raises now t rest (fireEffect t) (Task.reset now t)
        t.repeat' hd hrun hexn, ih]
      cases hr : t.repeat' <;>
        simp [List.takeWhile_cons, List.dropWhile_cons, hd, List.filterMap_cons, hr]
    · rw [scanDue_cons_not_due raises now t rest hd]
      simp [List.takeWhile_cons, List.dropWhile_cons, hd]

/-! ## Sorted-schedule conversions -/

/-- On a schedule sorted by `next`, the due prefix is exactly the set of
due tasks. -/
theorem takeWhile_due_eq_filter (now : Int) :
    ∀ l : List Task, l.Sorted taskLE →
      l.takeWhile (fun t => decide (t.next ≤ now))
        = l.filter (fun t => decide (t.next ≤ now))
  | [], _ => rfl
  | t :: rest, hs => by
    obtain ⟨hrel, hrest⟩ := List.sorted_cons.mp hs
    by_cases hd : t.next ≤ now
    · simp [List.takeWhile_cons, List.filter_cons, hd,
        takeWhile_due_eq_filter now rest hrest]
    · have hall : ∀ u ∈ rest, ¬ u.next ≤ now := fun u hu hun =>
        hd (le_trans (hrel u hu) hun)
      simp [List.takeWhile_cons, List.filter_cons, hd]
      intro u hu
      exact lt_of_not_le (hall u hu)
  termination_by l => l.length

/-- On a schedule sorted by `next`, the suffix after the due prefix is
exactly the set of not-yet-due tasks. -/
theorem dropWhile_due_eq_filter (now : Int) :
    ∀ l : List Task, l.Sorted taskLE →
      l.dropWhile (fun t => decide (t.next ≤ now))
        = l.filter (fun t => !decide (t.next ≤ now))
  | [], _ => rfl
  | t :: rest, hs => by
    obtain ⟨hrel, hrest⟩ := List.sorted_cons.mp hs
    by_cases hd : t.next ≤ now
    · simp [List.dropWhile_cons, List.filter_cons, hd,
        dropWhile_due_eq_filter now rest hrest]
    · have hall : ∀ u ∈ rest, ¬ u.next ≤ now := fun u hu hun =>
        hd (le_trans (hrel u hu) hun)
      simp [List.dropWhile_cons, List.filter_cons, hd]
      symm
      rw [List.filter_eq_self]
      intro u hu
      simpa using hall u hu
  termination_by l => l.length

/-- Keeping (reset) exactly the repeating tasks, as a filter-and-map. -/
theorem filterMap_reset_eq (now : Int) :
    ∀ l : List Task,
      l.filterMap (fun t => if t.repeat' then some (Task.reset now t) else none)
        = (l.filter (fun t => t.repeat')).map (Task.reset now)
  | [] => rfl
  | t :: rest => by
    cases hr : t.repeat' <;>
      simp [List.filterMap_cons, List.filter_cons, hr, filterMap_reset_eq now rest]

/-- Composing the due filter with the repeat filter. -/
theorem filter_rep_filter_due (now : Int) :
    ∀ l : List Task,
      (l.filter (fun t => decide (t.next ≤ now))).filter (fun t => t.repeat')
        = l.filter (fun t => decide (t.next ≤ now) && t.repeat')
  | [] => rfl
  | t :: rest => by
    by_cases hd : t.next ≤ now
    · cases hr : t.repeat' <;>
        simp [List.filter_cons, hd, hr, filter_rep_filter_due now rest]
    · simp [List.filter_cons, hd, filter_rep_filter_due now rest]

/-! ## Claim C1: the due-task scan -/

/-- A due repeating sample task. -/
def dueRep : Task :=
  { name := "r", seconds := 10, callback := 0, args := [], kwargs := [],
    repeat' := true, next := 3, qpointer := none }

/-- A due non-repeating sample task. -/
def dueOnce : Task :=
  { name := "o", seconds := 10, callback := 1, args := [], kwargs := [],
    repeat' := false, next := 4, qpointer := none }

/-- A sample task that is not yet due at time `5`. -/
def notDue : Task :=
  { name := "x", seconds := 10, callback := 2, args := [], kwargs := [],
    repeat' := false, next := 20, qpointer := none }

/-- Claim C1: on a sorted schedule (no due callback raising), the scan fires
exactly the longest prefix of tasks with `next <= now` — which by sortedness
is exactly the set of due tasks — stops at the first task with `next > now`,
and afterwards every fired non-repeating task has been removed while every
fired repeating task remains (reset) and the unfired suffix is untouched. -/
theorem due_scan_fires_front (raises : Nat → Bool) (now : Int) (l : List Task)
    (hsort : l.Sorted taskLE)
    (hok : ∀ t ∈ l, t.next ≤ now → t.qpointer = none → raises t.callback = false) :
    (scanDue raises now l).exn = none ∧
    (scanDue raises now l).effects
      = (l.takeWhile (fun t => decide (t.next ≤ now))).map fireEffect ∧
    (scanDue raises now l).effects
      = (l.filter (fun t => decide (t.next ≤ now))).map fireEffect ∧
    (scanDue raises now l).sched
      = (l.filter (fun t => decide (t.next ≤ now) && t.repeat')).map (Task.reset now)
        ++ l.filter (fun t => !decide (t.next ≤ now)) ∧
    (∀ t ∈ l, t.next ≤ now → t.repeat' = true →
      Task.reset now t ∈ (scanDue raises now l).sched) ∧
    (∀ t ∈ l, ¬ t.next ≤ now → t ∈ (scanDue raises now l).sched) := by
  have heq := scanDue_eq raises now l hok
  have htake := takeWhile_due_eq_filter now l hsort
  have hdrop := dropWhile_due_eq_filter now l hsort
  have hsched : (scanDue raises now l).sched
      = (l.filter (fun t => decide (t.next ≤ now) && t.repeat')).map (Task.reset now)
        ++ l.filter (fun t => !decide (t.next ≤ now)) := by
    rw [heq]
    show List.filterMap _ _ ++ _ = _
    rw [htake, hdrop, filterMap_reset_eq, filter_rep_filter_due]
  refine ⟨by rw [heq], by rw [heq], by rw [heq, htake], hsched, ?_, ?_⟩
  · intro t ht hd hr
    rw [hsched]
    refine List.mem_append.mpr (Or.inl (List.mem_map.mpr ⟨t, ?_, rfl⟩))
    simp [List.mem_filter, ht, hd, hr]
  · intro t ht hd
    rw [hsched]
    refine List.mem_append.mpr (Or.inr ?_)
    simp [List.mem_filter, ht, hd]

/-- Claim C1 witness: at time `5`, the sorted schedule
`[dueRep, dueOnce, notDue]` fires the two due tasks, keeps `dueRep` reset,
drops `dueOnce`, and leaves `notDue` untouched. -/
theorem due_scan_fires_front_witness :
    (scanDue (fun _ => false) 5 [dueRep, dueOnce, notDue]).exn = none ∧
    (scanDue (fun _ => false) 5 [dueRep, dueOnce, notDue]).effects
      = [fireEffect dueRep, fireEffect dueOnce] ∧
    (scanDue (fun _ => false) 5 [dueRep, dueOnce, notDue]).sched
      = [Task.reset 5 dueRep, notDue] :=
  ⟨(due_scan_fires_front (fun _ => false) 5 [dueRep, dueOnce, notDue]
      (by decide) (fun t ht hd hq => rfl)).1,
   (due_scan_fires_front (fun _ => false) 5 [dueRep, dueOnce, notDue]
      (by decide) (fun t ht hd hq => rfl)).2.2.1,
   (due_scan_fires_front (fun _ => false) 5 [dueRep, dueOnce, notDue]
      (by decide) (fun t ht hd hq => rfl)).2.2.2.1⟩

/-! ## Claim C3: the schedule stays sorted -/

/-- `remove` deletes at most one element, so its result is a sublist. -/
theorem removeList_sublist (name : String) :
    ∀ l : List Task, (removeList name l).Sublist l
  | [] => List.Sublist.refl _
  | t :: rest => by
    simp only [removeList]
    split
    · exact List.Sublist.cons₂ t (removeList_sublist name rest)
    · split
      · exact List.Sublist.cons t (List.Sublist.refl rest)
      · exact List.Sublist.cons₂ t (removeList_sublist name rest)

/-- Claim C3: each of the three schedule mutations maps a sorted active
list to a sorted one — merging a popped pending task (append plus re-sort),
the due-task scan (firing resets `next`, with a re-sort when anything
fired), and `remove` (deleting one element). -/
theorem schedule_stays_sorted (raises : Nat → Bool) (now : Int) (s : SchedState)
    (name : String) :
    (s.schedule.Sorted taskLE → (mergeStep s).schedule.Sorted taskLE) ∧
    (s.schedule.Sorted taskLE → (emptyStep raises now s).1.schedule.Sorted taskLE) ∧
    (s.schedule.Sorted taskLE → (Scheduler.remove s name).schedule.Sorted taskLE) := by
  refine ⟨?_, ?_, ?_⟩
  · intro hs
    cases haddq : s.addq with
    | nil => simpa [mergeStep, haddq] using hs
    | cons t rest =>
      simp only [mergeStep, haddq]
      exact List.sorted_insertionSort taskLE _
  · intro hs
    simp only [emptyStep]
    cases hupd : (scanDue raises now s.schedule).updated
    · simpa [hupd, scanDue_not_updated raises now s.schedule hupd] using hs
    · simpa [hupd] using List.sorted_insertionSort taskLE (scanDue raises now s.schedule).sched
  · intro hs
    exact List.Pairwise.sublist (removeList_sublist name s.schedule) hs

/-- Claim C3 witness: merging the pending task `sampleB` into the sorted
one-task schedule yields a sorted schedule. -/
theorem schedule_stays_sorted_witness :
    (mergeStep { addq := [sampleB], schedule := [sampleActive],
                 run := true, stop := false }).schedule.Sorted taskLE :=
  (schedule_stays_sorted (fun _ => false) 0
      { addq := [sampleB], schedule := [sampleActive], run := true, stop := false }
      "a").1 (by decide)

/-! ## Claim C7: callback exceptions propagate -/

/-- A sample task whose callback (id `9`) raises. -/
def badTask : Task :=
  { name := "e", seconds := 1, callback := 9, args := [], kwargs := [],
    repeat' := true, next := 4, qpointer := none }

/-- If every task of `pre` is due and fires cleanly and the next task `bad`
is due with a raising local callback, the scan raises `bad`'s exception
after firing exactly `pre`'s effects — nothing after `bad` fires. -/
theorem scanDue_error_after_front (raises : Nat → Bool) (now : Int) (bad : Task)
    (post : List Task) (hq : bad.qpointer = none) (hr : raises bad.callback = true)
    (hd : bad.next ≤ now) :
    ∀ pre : List Task,
      (∀ t ∈ pre, t.next ≤ now ∧ (t.qpointer = none → raises t.callback = false)) →
      (scanDue raises now (pre ++ bad :: post)).exn = some bad.callback ∧
      (scanDue raises now (pre ++ bad :: post)).effects = pre.map fireEffect
  | [], _ => by
    have herr : Task.run raises now bad = .error bad.callback := by
      simp [Task.run, hq, hr]
    rw [List.nil_append,
      scanDue_cons_due_error raises now bad post bad.callback hd herr]
    exact ⟨rfl, rfl⟩
  | t :: pre, hpre => by
    obtain ⟨hd', hok'⟩ := hpre t (List.Mem.head _)
    have hrun := Task.run_ok raises now t hok'
    have ih := scanDue_error_after_front raises now bad post hq hr hd pre
      (fun u hu => hpre u (List.Mem.tail _ hu))
    rw [List.cons_append,
      scanDue_cons_due_ok_some raises now t (pre ++ bad :: post) (fireEffect t)
        (Task.reset now t) t.repeat' bad.callback hd' hrun ih.1]
    exact ⟨rfl, by simp [ih.2]⟩

/-- Claim C7: an exception raised by a callback during the due-task scan is
not caught by the loop — the iteration ends with that exception, the due
tasks after the raising one are left unfired, and `_process`'s handler
catches only `KeyboardInterrupt` and `SystemExit`, letting a callback
exception propagate and terminate the loop. -/
theorem callback_exception_propagates (raises : Nat → Bool) (now : Int)
    (s : SchedState) (pre post : List Task) (bad : Task)
    (hsched : s.schedule = pre ++ bad :: post)
    (hpre : ∀ t ∈ pre, t.next ≤ now ∧ (t.qpointer = none → raises t.callback = false))
    (hd : bad.next ≤ now) (hq : bad.qpointer = none)
    (hr : raises bad.callback = true) :
    ((emptyStep raises now s).2.2 = some bad.callback) ∧
    ((emptyStep raises now s).2.1 = pre.map fireEffect) ∧
    (handleProcessExn (emptyStep raises now s).1 (.callbackError bad.callback)
      = ((emptyStep raises now s).1, some (.callbackError bad.callback))) ∧
    (∀ s' : SchedState, handleProcessExn s' .keyboardInterrupt
      = ({ s' with run := false }, none)) ∧
    (∀ s' : SchedState, handleProcessExn s' .systemExit
      = ({ s' with run := false }, none)) := by
  obtain ⟨h1, h2⟩ := scanDue_error_after_front raises now bad post hq hr hd pre hpre
  refine ⟨?_, ?_, rfl, fun s' => rfl, fun s' => rfl⟩
  · simp only [emptyStep, hsched]
    exact h1
  · simp only [emptyStep, hsched]
    exact h2

/-- Claim C7 witness: at time `5`, with schedule `[dueRep, badTask, notDue]`
and callback `9` raising, the iteration fires only `dueRep` and ends with
the uncaught exception. -/
theorem callback_exception_propagates_witness :
    ((emptyStep (fun c => c == 9) 5
        { addq := [], schedule := [dueRep, badTask, notDue],
          run := true, stop := false }).2.2 = some 9) ∧
    ((emptyStep (fun c => c == 9) 5
        { addq := [], schedule := [dueRep, badTask, notDue],
          run := true, stop := false }).2.1 = [fireEffect dueRep]) :=
  ⟨(callback_exception_propagates (fun c => c == 9) 5
      { addq := [], schedule := [dueRep, badTask, notDue], run := true, stop := false }
      [dueRep] [notDue] badTask rfl (by decide) (by decide) rfl rfl).1,
   (callback_exception_propagates (fun c => c == 9) 5
      { addq := [], schedule := [dueRep, badTask, notDue], run := true, stop := false }
      [dueRep] [notDue] badTask rfl (by decide) (by decide) rfl rfl).2.1⟩

/-! ## Claim C8: `remove` -/

/-- `remove` on a schedule without the name is the identity. -/
theorem removeList_no_match (name : String) :
    ∀ l : List Task, (∀ t ∈ l, t.name ≠ name) → removeList name l = l
  | [], _ => rfl
  | t :: rest, h => by
    have hrest : rest.any (fun u => u.name == name) = false := by
      rw [List.any_eq_false]
      intro u hu
      simp [h u (List.Mem.tail _ hu)]
    have ht : (t.name == name) = false := by
      simp [h t (List.Mem.head _)]
    simp [removeList, hrest, ht,
      removeList_no_match name rest (fun u hu => h u (List.Mem.tail _ hu))]

/-- With at most one matching task, `remove` equals filtering the name
out. -/
theorem removeList_eq_filter (name : String) :
    ∀ l : List Task, (l.filter (fun t => t.name == name)).length ≤ 1 →
      removeList name l = l.filter (fun t => !(t.name == name))
  | [], _ => rfl
  | t :: rest, h => by
    by_cases ht : t.name = name
    · have hlen : (rest.filter (fun u => u.name == name)).length = 0 := by
        rw [List.filter_cons] at h
        simp only [ht, beq_self_eq_true, if_true, List.length_cons] at h
        omega
      have hrest : ∀ u ∈ rest, u.name ≠ name := by
        intro u hu hun
        have hmem : u ∈ rest.filter (fun u => u.name == name) := by
          simp [List.mem_filter, hu, hun]
        rw [List.length_eq_zero] at hlen
        rw [hlen] at hmem
        cases hmem
      have hany : rest.any (fun u => u.name == name) = false := by
        rw [List.any_eq_false]
        intro u hu
        simp [hrest u hu]
      have hfil : rest.filter (fun u => !(u.name == name)) = rest := by
        rw [List.filter_eq_self]
        intro u hu
        simp [hrest u hu]
      simp [removeList, hany, ht, List.filter_cons, hfil]
    · have hcount : (rest.filter (fun u => u.name == name)).length ≤ 1 := by
        rw [List.filter_cons] at h
        simp only [beq_eq_false_iff_ne.mpr ht, Bool.false_eq_true, if_neg] at h
        exact h
      by_cases hany : rest.any (fun u => u.name == name) = true
      · simp [removeList, hany, ht, List.filter_cons,
          removeList_eq_filter name rest hcount]
      · have hany' : rest.any (fun u => u.name == name) = false := by
          simpa using hany
        simp [removeList, hany', ht, List.filter_cons,
          removeList_eq_filter name rest hcount]

/-- Claim C8: `remove(name)` deletes the task with that name from the
schedule when present (with at most one matching task it equals filtering
that name out), is a silent no-op when none is present, is idempotent, and
never touches the pending queue. -/
theorem remove_name_spec (s : SchedState) (name : String) :
    ((∀ t ∈ s.schedule, t.name ≠ name) → Scheduler.remove s name = s) ∧
    ((s.schedule.filter (fun t => t.name == name)).length ≤ 1 →
      (Scheduler.remove s name).schedule
        = s.schedule.filter (fun t => !(t.name == name))) ∧
    ((s.schedule.filter (fun t => t.name == name)).length ≤ 1 →
      Scheduler.remove (Scheduler.remove s name) name = Scheduler.remove s name) ∧
    ((Scheduler.remove s name).addq = s.addq) := by
  refine ⟨?_, ?_, ?_, rfl⟩
  · intro h
    simp [Scheduler.remove, removeList_no_match name s.schedule h]
  · intro h
    simp [Scheduler.remove, removeList_eq_filter name s.schedule h]
  · intro h
    have h2 : (Scheduler.remove s name).schedule
        = s.schedule.filter (fun t => !(t.name == name)) := by
      simp [Scheduler.remove, removeList_eq_filter name s.schedule h]
    have hno : ∀ t ∈ (Scheduler.remove s name).schedule, t.name ≠ name := by
      intro t ht
      rw [h2] at ht
      have := (List.mem_filter.mp ht).2
      simpa using this
    simp [Scheduler.remove]
    exact removeList_no_match name _ (by
      intro t ht
      exact hno t (by simpa [Scheduler.remove] using ht))

/-- Claim C8 witness: removing `"a"` deletes the single matching task, and
removing it again has no further effect. -/
theorem remove_name_spec_witness :
    ((Scheduler.remove sampleStateWithA "a").schedule
      = sampleStateWithA.schedule.filter (fun t => !(t.name == "a"))) ∧
    (Scheduler.remove (Scheduler.remove sampleStateWithA "a") "a"
      = Scheduler.remove sampleStateWithA "a") :=
  ⟨(remove_name_spec sampleStateWithA "a").2.1 (by decide),
   (remove_name_spec sampleStateWithA "a").2.2.1 (by decide)⟩

end SleekScheduler
